import Mathlib

/-!
Verification of the retry/polling utility `utils/retry.py` of the qa-framework
repository, as a shallow embedding in Lean 4.

Modelling conventions:
- A Python callable that may raise is modelled as a function returning
  `Outcome ε α`: either a normal value (`ok`) or a raised exception (`fault`).
- The wrapped operation of `retry` is a function of the attempt number
  (attempts are numbered 1, 2, ... as in the source's `range(1, times + 1)`),
  so that a different outcome can occur on each attempt.
- Time is idealized (a simulated monotonic clock): the call starts at time 0,
  evaluating a callable takes no time, and `time.sleep(d)` advances the clock
  by exactly `d`.  Durations are rationals.
- Side effects are collected in an explicit trace: the list of `on_retry`
  callback invocations, the list (or count) of sleeps, the number of times the
  wrapped callable was invoked, and the final clock value.
- The `while` loops of `wait_until` / `poll_until` are written with an explicit
  fuel parameter; the top-level wrappers supply fuel that is proven sufficient
  whenever the poll interval is positive, and a `diverge` result marks fuel
  exhaustion (which the theorems show is unreachable under the stated
  preconditions).
-/

/-- Result of calling a Python callable: a normal return value or a raised
exception of type `ε`. -/
inductive Outcome (ε : Type) (α : Type) where
  | ok : α → Outcome ε α
  | fault : ε → Outcome ε α
  deriving DecidableEq, Repr

/-- How a call of the `retry`-wrapped function terminates.
`raiseNone` models reaching `raise last_exc` with `last_exc` still `None`
(Python raises a `TypeError` there instead of a result or an operation fault). -/
inductive RetryResult (ε : Type) (α : Type) where
  | ok : α → RetryResult ε α
  | raised : ε → RetryResult ε α
  | raiseNone : RetryResult ε α
  deriving DecidableEq, Repr

/-- Observable trace of one call of the wrapper produced by
`retry(times, delay, backoff, exceptions, on_retry)`. -/
structure RetryTrace (ε : Type) (α : Type) where
  result : RetryResult ε α
  /-- the `(exc, attempt)` arguments of each `on_retry` invocation, in order -/
  onRetryCalls : List (ε × ℤ)
  /-- the durations of the `time.sleep(current_delay)` calls, in order -/
  sleeps : List ℚ
  /-- how many times `func` was invoked -/
  attemptsMade : ℕ
  deriving DecidableEq, Repr

/-- The `for attempt in range(1, times + 1)` loop of `wrapper` in
`utils/retry.py` (lines 58-76).  `attempt` is the current attempt number,
`r` the number of loop iterations still to run (`times - attempt + 1` clamped
at 0), `curDelay` the current value of `current_delay`, `lastExc` the current
value of `last_exc`.  When the iterations are exhausted the trailing
`raise last_exc` runs. -/
def retryGo (retryable : ε → Bool) (backoff : ℚ) (times : ℤ)
    (op : ℤ → Outcome ε α) : ℤ → ℕ → ℚ → Option ε → RetryTrace ε α
  | _, 0, _, lastExc =>
    { result := match lastExc with
        | some e => .raised e
        | none => .raiseNone
      onRetryCalls := []
      sleeps := []
      attemptsMade := 0 }
  | attempt, r + 1, curDelay, _ =>
    match op attempt with
    | .ok v =>
      { result := .ok v, onRetryCalls := [], sleeps := [], attemptsMade := 1 }
    | .fault e =>
      if retryable e then
        if attempt = times then
          -- `if attempt == times: break`, then `raise last_exc` with
          -- `last_exc = exc`
          { result := .raised e, onRetryCalls := [], sleeps := [],
            attemptsMade := 1 }
        else
          let rest := retryGo retryable backoff times op (attempt + 1) r
            (curDelay * backoff) (some e)
          { result := rest.result
            onRetryCalls := (e, attempt) :: rest.onRetryCalls
            sleeps := curDelay :: rest.sleeps
            attemptsMade := rest.attemptsMade + 1 }
      else
        -- the exception does not match the `except exceptions` clause and
        -- propagates out of the loop immediately
        { result := .raised e, onRetryCalls := [], sleeps := [],
          attemptsMade := 1 }

/-- One call of a function wrapped by `retry(times, delay, backoff,
exceptions, on_retry)` (`utils/retry.py` lines 39-79), where the membership
test of the caught exception in `exceptions` is the predicate `retryable`.
`range(1, times + 1)` has `max(times, 0)` elements, i.e. `times.toNat`. -/
def retry (times : ℤ) (delay backoff : ℚ) (retryable : ε → Bool)
    (op : ℤ → Outcome ε α) : RetryTrace ε α :=
  retryGo retryable backoff times op 1 times.toNat delay none

/-- How a call of `wait_until` terminates: normal return, a
`TimeoutError(f"{message} after {timeout}s")` carrying the message and the
configured timeout, an exception propagated out of the predicate, or fuel
exhaustion of the model (unreachable when the interval is positive). -/
inductive WaitResult (ε : Type) where
  | ok : WaitResult ε
  | timeout : String → ℚ → WaitResult ε
  | raised : ε → WaitResult ε
  | diverge : WaitResult ε
  deriving DecidableEq, Repr

/-- Observable trace of one `wait_until` call: how it ended, how many times
`condition()` was called, how many `time.sleep(interval)` calls ran, and the
simulated-clock time (elapsed since call start) at which it ended. -/
structure WaitTrace (ε : Type) where
  result : WaitResult ε
  evals : ℕ
  sleeps : ℕ
  finalTime : ℚ
  deriving DecidableEq, Repr

/-- The `while time.monotonic() < deadline` loop of `wait_until`
(`utils/retry.py` lines 94-99).  The simulated clock starts at 0, so
`deadline = timeout` and the current clock value `t` is the elapsed time.
`condition` is indexed by the number of evaluations already made, so each
evaluation may yield a different outcome; a `fault` outcome models the
predicate raising, which is not caught by the loop.  `j` counts the
evaluations performed so far (each completed iteration also slept once). -/
def waitUntilGo (condition : ℕ → Outcome ε Bool) (interval deadline : ℚ)
    (message : String) (timeout : ℚ) : ℕ → ℕ → ℚ → WaitTrace ε
  | 0, j, t => { result := .diverge, evals := j, sleeps := j, finalTime := t }
  | fuel + 1, j, t =>
    if t < deadline then
      match condition j with
      | .fault e =>
        { result := .raised e, evals := j + 1, sleeps := j, finalTime := t }
      | .ok b =>
        if b then
          { result := .ok, evals := j + 1, sleeps := j, finalTime := t }
        else
          waitUntilGo condition interval deadline message timeout fuel (j + 1)
            (t + interval)
    else
      { result := .timeout message timeout, evals := j, sleeps := j,
        finalTime := t }

/-- Fuel that suffices for the `wait_until` / `poll_until` loops whenever
`interval > 0`: the loop body runs at most `⌈timeout / interval⌉` times. -/
def waitFuel (timeout interval : ℚ) : ℕ := (⌈timeout / interval⌉).toNat + 1

/-- One call of `wait_until(condition, timeout, interval, message)`
(`utils/retry.py` lines 82-99) under the simulated clock starting at 0. -/
def wait_until (condition : ℕ → Outcome ε Bool) (timeout interval : ℚ)
    (message : String) : WaitTrace ε :=
  waitUntilGo condition interval timeout message timeout
    (waitFuel timeout interval) 0 0

/-- How a call of `poll_until` terminates: a returned value, a
`TimeoutError(f"{message} after {timeout}s. Last result: {last_result}")`
carrying the message, the configured timeout and the current `last_result`,
an exception propagated out of `fn` or of `condition`, or fuel exhaustion of
the model. -/
inductive PollResult (ε : Type) (α : Type) where
  | ok : α → PollResult ε α
  | timeout : String → ℚ → Option α → PollResult ε α
  | raised : ε → PollResult ε α
  | diverge : PollResult ε α
  deriving DecidableEq, Repr

/-- Observable trace of one `poll_until` call: how it ended, how many times
the producer `fn()` was called, how many sleeps ran, and the elapsed
simulated-clock time at the end. -/
structure PollTrace (ε : Type) (α : Type) where
  result : PollResult ε α
  calls : ℕ
  sleeps : ℕ
  finalTime : ℚ
  deriving DecidableEq, Repr

/-- The `while time.monotonic() < deadline` loop of `poll_until`
(`utils/retry.py` lines 121-128).  `fn` is indexed by the number of producer
calls already made; `last` is the current value of `last_result` (initially
`None`).  If `fn()` raises, `last_result` is not updated and the exception
propagates; if `condition(last_result)` raises it propagates as well. -/
def pollUntilGo (fn : ℕ → Outcome ε α) (condition : α → Outcome ε Bool)
    (interval deadline : ℚ) (message : String) (timeout : ℚ) :
    ℕ → ℕ → ℚ → Option α → PollTrace ε α
  | 0, j, t, _ => { result := .diverge, calls := j, sleeps := j, finalTime := t }
  | fuel + 1, j, t, last =>
    if t < deadline then
      match fn j with
      | .fault e =>
        { result := .raised e, calls := j + 1, sleeps := j, finalTime := t }
      | .ok r =>
        match condition r with
        | .fault e =>
          { result := .raised e, calls := j + 1, sleeps := j, finalTime := t }
        | .ok b =>
          if b then
            { result := .ok r, calls := j + 1, sleeps := j, finalTime := t }
          else
            pollUntilGo fn condition interval deadline message timeout fuel
              (j + 1) (t + interval) (some r)
    else
      { result := .timeout message timeout last, calls := j, sleeps := j,
        finalTime := t }

/-- One call of `poll_until(fn, condition, timeout, interval, message)`
(`utils/retry.py` lines 102-128) under the simulated clock starting at 0. -/
def poll_until (fn : ℕ → Outcome ε α) (condition : α → Outcome ε Bool)
    (timeout interval : ℚ) (message : String) : PollTrace ε α :=
  pollUntilGo fn condition interval timeout message timeout
    (waitFuel timeout interval) 0 0 none

/-- The loop of `async_wait_until` (`utils/retry.py` lines 138-146).  The
event-loop clock is modelled like the monotonic clock; awaiting a coroutine
result is transparent in the model, so `condition` again yields a truth
value or a fault per evaluation, and `await asyncio.sleep(interval)` advances
the clock by `interval`. -/
def asyncWaitUntilGo (condition : ℕ → Outcome ε Bool) (interval deadline : ℚ)
    (message : String) (timeout : ℚ) : ℕ → ℕ → ℚ → WaitTrace ε
  | 0, j, t => { result := .diverge, evals := j, sleeps := j, finalTime := t }
  | fuel + 1, j, t =>
    if t < deadline then
      match condition j with
      | .fault e =>
        { result := .raised e, evals := j + 1, sleeps := j, finalTime := t }
      | .ok b =>
        if b then
          { result := .ok, evals := j + 1, sleeps := j, finalTime := t }
        else
          asyncWaitUntilGo condition interval deadline message timeout fuel
            (j + 1) (t + interval)
    else
      { result := .timeout message timeout, evals := j, sleeps := j,
        finalTime := t }

/-- One call of `async_wait_until(condition, timeout, interval, message)`
(`utils/retry.py` lines 131-146). -/
def async_wait_until (condition : ℕ → Outcome ε Bool) (timeout interval : ℚ)
    (message : String) : WaitTrace ε :=
  asyncWaitUntilGo condition interval timeout message timeout
    (waitFuel timeout interval) 0 0

/-- The loop of `async_poll_until` (`utils/retry.py` lines 157-167).  As in
`pollUntilGo`: if `fn()` (or the awaited coroutine) raises, `last_result`
keeps its previous value and the exception propagates. -/
def asyncPollUntilGo (fn : ℕ → Outcome ε α) (condition : α → Outcome ε Bool)
    (interval deadline : ℚ) (message : String) (timeout : ℚ) :
    ℕ → ℕ → ℚ → Option α → PollTrace ε α
  | 0, j, t, _ => { result := .diverge, calls := j, sleeps := j, finalTime := t }
  | fuel + 1, j, t, last =>
    if t < deadline then
      match fn j with
      | .fault e =>
        { result := .raised e, calls := j + 1, sleeps := j, finalTime := t }
      | .ok r =>
        match condition r with
        | .fault e =>
          { result := .raised e, calls := j + 1, sleeps := j, finalTime := t }
        | .ok b =>
          if b then
            { result := .ok r, calls := j + 1, sleeps := j, finalTime := t }
          else
            asyncPollUntilGo fn condition interval deadline message timeout
              fuel (j + 1) (t + interval) (some r)
    else
      { result := .timeout message timeout last, calls := j, sleeps := j,
        finalTime := t }

/-- One call of `async_poll_until(fn, condition, timeout, interval, message)`
(`utils/retry.py` lines 149-167). -/
def async_poll_until (fn : ℕ → Outcome ε α) (condition : α → Outcome ε Bool)
    (timeout interval : ℚ) (message : String) : PollTrace ε α :=
  asyncPollUntilGo fn condition interval timeout message timeout
    (waitFuel timeout interval) 0 0 none

example :
    (retry 3 1 2 (fun _ => true)
      (fun a => if a < 3 then Outcome.fault "boom" else Outcome.ok 42)) =
    { result := .ok 42, onRetryCalls := [("boom", 1), ("boom", 2)],
      sleeps := [1, 2], attemptsMade := 3 } := by
  norm_num [retry, retryGo]

example :
    (retry 2 1 2 (fun _ => true)
      (fun _ => (Outcome.fault "boom" : Outcome String ℕ))) =
    { result := .raised "boom", onRetryCalls := [("boom", 1)],
      sleeps := [1], attemptsMade := 2 } := by
  norm_num [retry, retryGo]

example :
    (retry 0 1 2 (fun _ => true)
      (fun _ => (Outcome.ok 7 : Outcome String ℕ))) =
    { result := .raiseNone, onRetryCalls := [], sleeps := [],
      attemptsMade := 0 } := by
  norm_num [retry, retryGo]

example :
    (wait_until (fun _ => (Outcome.ok false : Outcome Unit Bool)) 1 1 "m") =
    { result := .timeout "m" 1, evals := 1, sleeps := 1, finalTime := 1 } := by
  norm_num [wait_until, waitUntilGo, waitFuel]

example :
    (wait_until (fun _ => (Outcome.ok false : Outcome Unit Bool)) 1 (7/10) "m") =
    { result := .timeout "m" 1, evals := 2, sleeps := 2, finalTime := 7/5 } := by
  have h2 : (⌈(10:ℚ)/7⌉ : ℤ) = 2 := by norm_num [Int.ceil_eq_iff]
  norm_num [wait_until, waitUntilGo, waitFuel, h2]

example :
    (poll_until (fun j => (Outcome.ok (j + 1) : Outcome Unit ℕ))
      (fun v => Outcome.ok (decide (v = 3))) 10 1 "m") =
    { result := .ok 3, calls := 3, sleeps := 2, finalTime := 2 } := by
  norm_num [poll_until, pollUntilGo, waitFuel]

/-- If the next `m` attempts raise retryable faults and attempt `attempt + m`
succeeds with `v` while still inside the attempt range, the loop returns `v`,
having invoked `on_retry` and slept once per failed attempt, with geometrically
growing delays starting from the current delay. -/
theorem retryGo_succeedAt (retryable : ε → Bool) (b : ℚ) (times : ℤ)
    (op : ℤ → Outcome ε α) (v : α) :
    ∀ (m : ℕ) (e : ℕ → ε) (attempt : ℤ) (r : ℕ) (d : ℚ) (last : Option ε),
      m < r → attempt + r = times + 1 →
      (∀ k : ℕ, k < m →
        op (attempt + k) = Outcome.fault (e k) ∧ retryable (e k) = true) →
      op (attempt + m) = Outcome.ok v →
      retryGo retryable b times op attempt r d last =
        { result := RetryResult.ok v,
          onRetryCalls := (List.range m).map fun k => (e k, attempt + k),
          sleeps := (List.range m).map fun k => d * b ^ k,
          attemptsMade := m + 1 } := by
  intro m
  induction m with
  | zero =>
    intro e attempt r d last hmr hinv hpre hsucc
    obtain ⟨r', rfl⟩ : ∃ r', r = r' + 1 := ⟨r - 1, by omega⟩
    have h0 : op attempt = Outcome.ok v := by simpa using hsucc
    simp [retryGo, h0]
  | succ m ih =>
    intro e attempt r d last hmr hinv hpre hsucc
    obtain ⟨r', rfl⟩ : ∃ r', r = r' + 1 := ⟨r - 1, by omega⟩
    have h0 := hpre 0 (Nat.succ_pos m)
    have h0f : op attempt = Outcome.fault (e 0) := by simpa using h0.1
    have hne : attempt ≠ times := by omega
    have hrec := ih (fun k => e (k + 1)) (attempt + 1) r' (d * b) (some (e 0))
      (by omega) (by push_cast at hinv ⊢; omega)
      (by
        intro k hk
        have := hpre (k + 1) (by omega)
        constructor
        · rw [show attempt + 1 + (k : ℤ) = attempt + ((k : ℕ) + 1 : ℕ) by
            push_cast; ring]
          exact this.1
        · exact this.2)
      (by
        rw [show attempt + 1 + (m : ℤ) = attempt + ((m : ℕ) + 1 : ℕ) by
          push_cast; ring]
        exact hsucc)
    simp only [retryGo, h0f, h0.2, hne, if_true, if_false, ite_true, ite_false]
    rw [hrec]
    simp only [RetryTrace.mk.injEq, true_and, and_true]
    constructor
    · rw [List.range_succ_eq_map, List.map_cons, List.map_map]
      refine List.cons_eq_cons.mpr ⟨by simp, ?_⟩
      simp only [List.map_inj_left, Function.comp_apply, Nat.succ_eq_add_one]
      intro k hk
      rw [show attempt + 1 + (k : ℤ) = attempt + ((k + 1 : ℕ) : ℤ) by
        push_cast; ring]
    · rw [List.range_succ_eq_map, List.map_cons, List.map_map]
      refine List.cons_eq_cons.mpr ⟨by simp, ?_⟩
      simp only [List.map_inj_left, Function.comp_apply, Nat.succ_eq_add_one]
      intro k hk
      rw [pow_succ]
      ring

/-- If every attempt in the remaining range raises a retryable fault, the
loop re-raises the fault of the final attempt (`times`), invoking `on_retry`
and sleeping once per non-final attempt. -/
theorem retryGo_allFault (retryable : ε → Bool) (b : ℚ) (times : ℤ)
    (op : ℤ → Outcome ε α) (e : ℤ → ε) :
    ∀ (r : ℕ) (attempt : ℤ) (d : ℚ) (last : Option ε),
      1 ≤ r → attempt + r = times + 1 →
      (∀ a : ℤ, attempt ≤ a → a ≤ times →
        op a = Outcome.fault (e a) ∧ retryable (e a) = true) →
      retryGo retryable b times op attempt r d last =
        { result := RetryResult.raised (e times),
          onRetryCalls := (List.range (r - 1)).map fun k : ℕ =>
            (e (attempt + (k : ℤ)), attempt + (k : ℤ)),
          sleeps := (List.range (r - 1)).map fun k : ℕ => d * b ^ k,
          attemptsMade := r } := by
  intro r
  induction r with
  | zero =>
    intro attempt d last h1
    exact absurd h1 (by omega)
  | succ r' ih =>
    intro attempt d last h1 hinv hop
    by_cases hr0 : r' = 0
    · subst hr0
      have ha : attempt = times := by omega
      subst ha
      have h0 := hop _ le_rfl le_rfl
      simp [retryGo, h0.1, h0.2]
    · have hr1 : 1 ≤ r' := Nat.one_le_iff_ne_zero.mpr hr0
      have ha : attempt ≠ times := by omega
      have h0 := hop attempt le_rfl (by omega)
      have hrec := ih (attempt + 1) (d * b) (some (e attempt)) hr1 (by omega)
        (fun a ha1 ha2 => hop a (by omega) ha2)
      simp only [retryGo, h0.1, h0.2, ha, if_true, if_false, ite_true,
        ite_false]
      rw [hrec]
      simp only [RetryTrace.mk.injEq, true_and, and_true]
      refine ⟨?_, ?_⟩
      · rw [show r' + 1 - 1 = (r' - 1) + 1 by omega]
        rw [List.range_succ_eq_map, List.map_cons, List.map_map]
        refine List.cons_eq_cons.mpr ⟨by simp, ?_⟩
        simp only [List.map_inj_left, Function.comp_apply, Nat.succ_eq_add_one]
        intro k hk
        rw [show attempt + 1 + (k : ℤ) = attempt + ((k + 1 : ℕ) : ℤ) by
          push_cast; ring]
      · rw [show r' + 1 - 1 = (r' - 1) + 1 by omega]
        rw [List.range_succ_eq_map, List.map_cons, List.map_map]
        refine List.cons_eq_cons.mpr ⟨by simp, ?_⟩
        simp only [List.map_inj_left, Function.comp_apply, Nat.succ_eq_add_one]
        intro k hk
        rw [pow_succ]
        ring

/-- Whatever the wrapped operation does, the sleeps of one `retry` call form
a geometric progression starting at the current delay with ratio `backoff`. -/
theorem retryGo_sleeps_geometric (retryable : ε → Bool) (b : ℚ) (times : ℤ)
    (op : ℤ → Outcome ε α) :
    ∀ (r : ℕ) (attempt : ℤ) (d : ℚ) (last : Option ε),
      ∃ m : ℕ, (retryGo retryable b times op attempt r d last).sleeps =
        (List.range m).map fun k : ℕ => d * b ^ k := by
  intro r
  induction r with
  | zero =>
    intro attempt d last
    exact ⟨0, by simp [retryGo]⟩
  | succ r' ih =>
    intro attempt d last
    cases hop : op attempt with
    | ok v => exact ⟨0, by simp [retryGo, hop]⟩
    | fault ex =>
      by_cases hrb : retryable ex
      · by_cases hat : attempt = times
        · subst hat
          exact ⟨0, by simp [retryGo, hop, hrb]⟩
        · obtain ⟨m, hm⟩ := ih (attempt + 1) (d * b) (some ex)
          refine ⟨m + 1, ?_⟩
          simp only [retryGo, hop, hrb, hat, if_true, if_false, ite_true,
            ite_false]
          rw [List.range_succ_eq_map, List.map_cons, List.map_map]
          refine List.cons_eq_cons.mpr ?_
          refine ⟨by simp, ?_⟩
          rw [hm]
          simp only [List.map_inj_left, Function.comp_apply,
            Nat.succ_eq_add_one]
          intro k hk
          rw [pow_succ]
          ring
      · exact ⟨0, by simp [retryGo, hop, hrb]⟩

/-- A predicate that always yields `false` drives the loop to the timeout
branch; the number of evaluations (and sleeps) starting from clock `t` is
`⌈(deadline - t) / interval⌉`, and the loop ends exactly when the clock first
reaches the deadline. -/
theorem waitUntilGo_neverTrue (condition : ℕ → Outcome ε Bool)
    (interval deadline : ℚ) (message : String) (timeout : ℚ)
    (hcond : ∀ k, condition k = Outcome.ok false) (hi : 0 < interval) :
    ∀ (fuel j : ℕ) (t : ℚ),
      (⌈(deadline - t) / interval⌉).toNat < fuel →
      waitUntilGo condition interval deadline message timeout fuel j t =
        { result := .timeout message timeout,
          evals := j + (⌈(deadline - t) / interval⌉).toNat,
          sleeps := j + (⌈(deadline - t) / interval⌉).toNat,
          finalTime := t +
            ((⌈(deadline - t) / interval⌉).toNat : ℚ) * interval } := by
  intro fuel
  induction fuel with
  | zero =>
    intro j t h
    exact absurd h (by omega)
  | succ f ih =>
    intro j t h
    by_cases ht : t < deadline
    · have hceilpos : 0 < ⌈(deadline - t) / interval⌉ :=
        Int.ceil_pos.mpr (div_pos (by linarith) hi)
      have hstep : (deadline - (t + interval)) / interval =
          (deadline - t) / interval - 1 := by
        field_simp
        ring
      have hceil : ⌈(deadline - (t + interval)) / interval⌉ =
          ⌈(deadline - t) / interval⌉ - 1 := by
        rw [hstep]
        rw [show ((1 : ℚ)) = ((1 : ℤ) : ℚ) by norm_num]
        exact Int.ceil_sub_int ((deadline - t) / interval) (1 : ℤ)
      have hrec := ih (j + 1) (t + interval) (by rw [hceil]; omega)
      rw [hceil] at hrec
      rw [show waitUntilGo condition interval deadline message timeout (f + 1)
          j t = waitUntilGo condition interval deadline message timeout f
          (j + 1) (t + interval) by
          rw [waitUntilGo, if_pos ht, hcond j]; simp]
      rw [hrec]
      simp only [WaitTrace.mk.injEq, true_and, and_true]
      refine ⟨by omega, by omega, ?_⟩
      have hcast : (((⌈(deadline - t) / interval⌉ - 1).toNat : ℚ)) =
          ((⌈(deadline - t) / interval⌉).toNat : ℚ) - 1 := by
        have h1 : (⌈(deadline - t) / interval⌉ - 1).toNat =
            (⌈(deadline - t) / interval⌉).toNat - 1 := by omega
        have h2 : 1 ≤ (⌈(deadline - t) / interval⌉).toNat := by omega
        rw [h1]
        push_cast [h2]
        ring
      rw [hcast]
      ring
    · have hm0 : (⌈(deadline - t) / interval⌉).toNat = 0 := by
        have hle : (deadline - t) / interval ≤ 0 :=
          div_nonpos_iff.mpr (Or.inr ⟨by linarith, hi.le⟩)
        have := Int.ceil_le.mpr (show (deadline - t) / interval ≤ ((0 : ℤ) : ℚ)
          by simpa using hle)
        omega
      simp [waitUntilGo, ht, hm0]

/-- The loop never decreases the running evaluation counter. -/
theorem waitUntilGo_evals_ge (condition : ℕ → Outcome ε Bool)
    (interval deadline : ℚ) (message : String) (timeout : ℚ) :
    ∀ (fuel j : ℕ) (t : ℚ),
      j ≤ (waitUntilGo condition interval deadline message timeout
        fuel j t).evals := by
  intro fuel
  induction fuel with
  | zero =>
    intro j t
    simp [waitUntilGo]
  | succ f ih =>
    intro j t
    by_cases ht : t < deadline
    · cases hc : condition j with
      | fault e => simp [waitUntilGo, ht, hc]
      | ok b =>
        cases b with
        | true => simp [waitUntilGo, ht, hc]
        | false =>
          rw [waitUntilGo, if_pos ht, hc]
          exact le_trans (Nat.le_succ j) (ih (j + 1) (t + interval))
    · simp [waitUntilGo, ht]

/-- The wrapper's fuel is enough to reach any iteration that starts strictly
before the deadline. -/
theorem lt_waitFuel (T i : ℚ) (m : ℕ) (hi : 0 < i) (h : (m : ℚ) * i < T) :
    m < waitFuel T i := by
  have h1 : (m : ℚ) < T / i := (lt_div_iff₀ hi).mpr h
  have h2 : ((m : ℤ) : ℚ) < (⌈T / i⌉ : ℚ) :=
    lt_of_lt_of_le (by exact_mod_cast h1) (Int.le_ceil (T / i))
  have h3 : (m : ℤ) < ⌈T / i⌉ := by exact_mod_cast h2
  unfold waitFuel
  omega

/-- If the predicate yields `false` for `m` evaluations and then raises a
fault, and the clock is still before the deadline at each of those
iterations, the fault escapes the loop, after `m + 1` evaluations and `m`
sleeps and with no further waiting. -/
theorem waitUntilGo_faultAt (condition : ℕ → Outcome ε Bool)
    (interval deadline : ℚ) (message : String) (timeout : ℚ) (e : ε) :
    ∀ (m fuel j : ℕ) (t : ℚ),
      (∀ k, k < m → condition (j + k) = Outcome.ok false) →
      condition (j + m) = Outcome.fault e →
      (∀ k : ℕ, k ≤ m → t + k * interval < deadline) →
      m < fuel →
      waitUntilGo condition interval deadline message timeout fuel j t =
        { result := .raised e, evals := j + m + 1, sleeps := j + m,
          finalTime := t + m * interval } := by
  intro m
  induction m with
  | zero =>
    intro fuel j t hpre hf htl hm
    obtain ⟨f, rfl⟩ : ∃ f, fuel = f + 1 := ⟨fuel - 1, by omega⟩
    have ht : t < deadline := by simpa using htl 0 (le_refl 0)
    have h0 : condition j = Outcome.fault e := by simpa using hf
    rw [waitUntilGo, if_pos ht, h0]
    simp
  | succ m ih =>
    intro fuel j t hpre hf htl hm
    obtain ⟨f, rfl⟩ : ∃ f, fuel = f + 1 := ⟨fuel - 1, by omega⟩
    have ht : t < deadline := by simpa using htl 0 (by omega)
    have h0 : condition j = Outcome.ok false := by simpa using hpre 0 (by omega)
    rw [show waitUntilGo condition interval deadline message timeout (f + 1) j
        t = waitUntilGo condition interval deadline message timeout f (j + 1)
        (t + interval) by rw [waitUntilGo, if_pos ht, h0]; simp]
    rw [ih f (j + 1) (t + interval)
      (fun k hk => by
        rw [show j + 1 + k = j + (k + 1) by omega]
        exact hpre (k + 1) (by omega))
      (by rw [show j + 1 + m = j + (m + 1) by omega]; exact hf)
      (fun k hk => by
        have := htl (k + 1) (by omega)
        rw [show t + interval + k * interval = t + ((k + 1 : ℕ) : ℚ) * interval
          by push_cast; ring]
        exact this)
      (by omega)]
    simp only [WaitTrace.mk.injEq, true_and, and_true]
    refine ⟨by omega, by omega, by push_cast; ring⟩

/-- If the producer yields values failing the predicate for `m` iterations
and on iteration `m` yields `v` satisfying it, and the clock is before the
deadline at each of those iterations, the loop returns `v` after exactly
`m + 1` producer calls. -/
theorem pollUntilGo_succeedAt (fn : ℕ → Outcome ε α)
    (condition : α → Outcome ε Bool) (interval deadline : ℚ)
    (message : String) (timeout : ℚ) (v : α) :
    ∀ (m : ℕ) (w : ℕ → α) (fuel j : ℕ) (t : ℚ) (last : Option α),
      (∀ k, k < m → fn (j + k) = Outcome.ok (w k) ∧
        condition (w k) = Outcome.ok false) →
      fn (j + m) = Outcome.ok v →
      condition v = Outcome.ok true →
      (∀ k : ℕ, k ≤ m → t + k * interval < deadline) →
      m < fuel →
      pollUntilGo fn condition interval deadline message timeout fuel j t
        last =
        { result := .ok v, calls := j + m + 1, sleeps := j + m,
          finalTime := t + m * interval } := by
  intro m
  induction m with
  | zero =>
    intro w fuel j t last hpre hfv hcv htl hm
    obtain ⟨f, rfl⟩ : ∃ f, fuel = f + 1 := ⟨fuel - 1, by omega⟩
    have ht : t < deadline := by simpa using htl 0 (le_refl 0)
    have h0 : fn j = Outcome.ok v := by simpa using hfv
    simp [pollUntilGo, ht, h0, hcv]
  | succ m ih =>
    intro w fuel j t last hpre hfv hcv htl hm
    obtain ⟨f, rfl⟩ : ∃ f, fuel = f + 1 := ⟨fuel - 1, by omega⟩
    have ht : t < deadline := by simpa using htl 0 (by omega)
    have h0 := hpre 0 (by omega)
    have h0f : fn j = Outcome.ok (w 0) := by simpa using h0.1
    rw [show pollUntilGo fn condition interval deadline message timeout
        (f + 1) j t last = pollUntilGo fn condition interval deadline message
        timeout f (j + 1) (t + interval) (some (w 0)) by
      rw [pollUntilGo, if_pos ht, h0f]; simp [h0.2]]
    rw [ih (fun k => w (k + 1)) f (j + 1) (t + interval) (some (w 0))
      (fun k hk => by
        rw [show j + 1 + k = j + (k + 1) by omega]
        exact hpre (k + 1) (by omega))
      (by rw [show j + 1 + m = j + (m + 1) by omega]; exact hfv)
      hcv
      (fun k hk => by
        have := htl (k + 1) (by omega)
        rw [show t + interval + k * interval = t + ((k + 1 : ℕ) : ℚ) * interval
          by push_cast; ring]
        exact this)
      (by omega)]
    simp only [PollTrace.mk.injEq, true_and, and_true]
    refine ⟨by omega, by omega, by push_cast; ring⟩

/-- A producer whose values never satisfy the predicate drives the loop to
the timeout branch; the attached `last_result` is the value of the final
producer call (or the incoming `last` when no iteration runs). -/
theorem pollUntilGo_neverTrue (fn : ℕ → Outcome ε α)
    (condition : α → Outcome ε Bool) (interval deadline : ℚ)
    (message : String) (timeout : ℚ) (w : ℕ → α)
    (hfn : ∀ k, fn k = Outcome.ok (w k))
    (hcond : ∀ k, condition (w k) = Outcome.ok false) (hi : 0 < interval) :
    ∀ (fuel j : ℕ) (t : ℚ) (last : Option α),
      (⌈(deadline - t) / interval⌉).toNat < fuel →
      pollUntilGo fn condition interval deadline message timeout fuel j t
        last =
        { result := .timeout message timeout
            (if (⌈(deadline - t) / interval⌉).toNat = 0 then last
              else some (w (j + (⌈(deadline - t) / interval⌉).toNat - 1))),
          calls := j + (⌈(deadline - t) / interval⌉).toNat,
          sleeps := j + (⌈(deadline - t) / interval⌉).toNat,
          finalTime := t +
            ((⌈(deadline - t) / interval⌉).toNat : ℚ) * interval } := by
  intro fuel
  induction fuel with
  | zero =>
    intro j t last h
    exact absurd h (by omega)
  | succ f ih =>
    intro j t last h
    by_cases ht : t < deadline
    · have hceilpos : 0 < ⌈(deadline - t) / interval⌉ :=
        Int.ceil_pos.mpr (div_pos (by linarith) hi)
      have hstep : (deadline - (t + interval)) / interval =
          (deadline - t) / interval - 1 := by
        field_simp
        ring
      have hceil : ⌈(deadline - (t + interval)) / interval⌉ =
          ⌈(deadline - t) / interval⌉ - 1 := by
        rw [hstep]
        rw [show ((1 : ℚ)) = ((1 : ℤ) : ℚ) by norm_num]
        exact Int.ceil_sub_int ((deadline - t) / interval) (1 : ℤ)
      have hrec := ih (j + 1) (t + interval) (some (w j)) (by rw [hceil]; omega)
      rw [hceil] at hrec
      have hattach : (if (⌈(deadline - t) / interval⌉ - 1).toNat = 0
            then some (w j)
            else some (w (j + 1 + (⌈(deadline - t) / interval⌉ - 1).toNat
              - 1))) =
          some (w (j + (⌈(deadline - t) / interval⌉).toNat - 1)) := by
        by_cases hm1 : (⌈(deadline - t) / interval⌉ - 1).toNat = 0
        · rw [if_pos hm1,
            show j + (⌈(deadline - t) / interval⌉).toNat - 1 = j by omega]
        · rw [if_neg hm1,
            show j + 1 + (⌈(deadline - t) / interval⌉ - 1).toNat - 1 =
              j + (⌈(deadline - t) / interval⌉).toNat - 1 by omega]
      rw [hattach] at hrec
      rw [show pollUntilGo fn condition interval deadline message timeout
          (f + 1) j t last = pollUntilGo fn condition interval deadline
          message timeout f (j + 1) (t + interval) (some (w j)) by
          rw [pollUntilGo, if_pos ht, hfn j]; simp [hcond j]]
      rw [hrec]
      rw [if_neg (show ¬(⌈(deadline - t) / interval⌉).toNat = 0 by omega)]
      have hcast : (((⌈(deadline - t) / interval⌉ - 1).toNat : ℚ)) =
          ((⌈(deadline - t) / interval⌉).toNat : ℚ) - 1 := by
        have h1 : (⌈(deadline - t) / interval⌉ - 1).toNat =
            (⌈(deadline - t) / interval⌉).toNat - 1 := by omega
        have h2 : 1 ≤ (⌈(deadline - t) / interval⌉).toNat := by omega
        rw [h1]
        push_cast [h2]
        ring
      simp only [PollTrace.mk.injEq, true_and, and_true]
      refine ⟨by omega, by omega, by rw [hcast]; ring⟩
    · have hm0 : (⌈(deadline - t) / interval⌉).toNat = 0 := by
        have hle : (deadline - t) / interval ≤ 0 :=
          div_nonpos_iff.mpr (Or.inr ⟨by linarith, hi.le⟩)
        have := Int.ceil_le.mpr (show (deadline - t) / interval ≤ ((0 : ℤ) : ℚ)
          by simpa using hle)
        omega
      simp [pollUntilGo, ht, hm0]

/-- If the producer yields predicate-failing values for `m` iterations and
then raises a fault on iteration `m`, the fault escapes the loop after
`m + 1` producer calls, with no further waiting. -/
theorem pollUntilGo_fnFaultAt (fn : ℕ → Outcome ε α)
    (condition : α → Outcome ε Bool) (interval deadline : ℚ)
    (message : String) (timeout : ℚ) (e : ε) :
    ∀ (m : ℕ) (w : ℕ → α) (fuel j : ℕ) (t : ℚ) (last : Option α),
      (∀ k, k < m → fn (j + k) = Outcome.ok (w k) ∧
        condition (w k) = Outcome.ok false) →
      fn (j + m) = Outcome.fault e →
      (∀ k : ℕ, k ≤ m → t + k * interval < deadline) →
      m < fuel →
      pollUntilGo fn condition interval deadline message timeout fuel j t
        last =
        { result := .raised e, calls := j + m + 1, sleeps := j + m,
          finalTime := t + m * interval } := by
  intro m
  induction m with
  | zero =>
    intro w fuel j t last hpre hfm htl hm
    obtain ⟨f, rfl⟩ : ∃ f, fuel = f + 1 := ⟨fuel - 1, by omega⟩
    have ht : t < deadline := by simpa using htl 0 (le_refl 0)
    have h0 : fn j = Outcome.fault e := by simpa using hfm
    simp [pollUntilGo, ht, h0]
  | succ m ih =>
    intro w fuel j t last hpre hfm htl hm
    obtain ⟨f, rfl⟩ : ∃ f, fuel = f + 1 := ⟨fuel - 1, by omega⟩
    have ht : t < deadline := by simpa using htl 0 (by omega)
    have h0 := hpre 0 (by omega)
    have h0f : fn j = Outcome.ok (w 0) := by simpa using h0.1
    rw [show pollUntilGo fn condition interval deadline message timeout
        (f + 1) j t last = pollUntilGo fn condition interval deadline message
        timeout f (j + 1) (t + interval) (some (w 0)) by
      rw [pollUntilGo, if_pos ht, h0f]; simp [h0.2]]
    rw [ih (fun k => w (k + 1)) f (j + 1) (t + interval) (some (w 0))
      (fun k hk => by
        rw [show j + 1 + k = j + (k + 1) by omega]
        exact hpre (k + 1) (by omega))
      (by rw [show j + 1 + m = j + (m + 1) by omega]; exact hfm)
      (fun k hk => by
        have := htl (k + 1) (by omega)
        rw [show t + interval + k * interval = t + ((k + 1 : ℕ) : ℚ) * interval
          by push_cast; ring]
        exact this)
      (by omega)]
    simp only [PollTrace.mk.injEq, true_and, and_true]
    refine ⟨by omega, by omega, by push_cast; ring⟩

/-- If the producer yields predicate-failing values for `m` iterations, then
yields `v` on iteration `m` and the predicate itself raises a fault on `v`,
the fault escapes the loop after `m + 1` producer calls. -/
theorem pollUntilGo_condFaultAt (fn : ℕ → Outcome ε α)
    (condition : α → Outcome ε Bool) (interval deadline : ℚ)
    (message : String) (timeout : ℚ) (v : α) (e : ε) :
    ∀ (m : ℕ) (w : ℕ → α) (fuel j : ℕ) (t : ℚ) (last : Option α),
      (∀ k, k < m → fn (j + k) = Outcome.ok (w k) ∧
        condition (w k) = Outcome.ok false) →
      fn (j + m) = Outcome.ok v →
      condition v = Outcome.fault e →
      (∀ k : ℕ, k ≤ m → t + k * interval < deadline) →
      m < fuel →
      pollUntilGo fn condition interval deadline message timeout fuel j t
        last =
        { result := .raised e, calls := j + m + 1, sleeps := j + m,
          finalTime := t + m * interval } := by
  intro m
  induction m with
  | zero =>
    intro w fuel j t last hpre hfv hcv htl hm
    obtain ⟨f, rfl⟩ : ∃ f, fuel = f + 1 := ⟨fuel - 1, by omega⟩
    have ht : t < deadline := by simpa using htl 0 (le_refl 0)
    have h0 : fn j = Outcome.ok v := by simpa using hfv
    simp [pollUntilGo, ht, h0, hcv]
  | succ m ih =>
    intro w fuel j t last hpre hfv hcv htl hm
    obtain ⟨f, rfl⟩ : ∃ f, fuel = f + 1 := ⟨fuel - 1, by omega⟩
    have ht : t < deadline := by simpa using htl 0 (by omega)
    have h0 := hpre 0 (by omega)
    have h0f : fn j = Outcome.ok (w 0) := by simpa using h0.1
    rw [show pollUntilGo fn condition interval deadline message timeout
        (f + 1) j t last = pollUntilGo fn condition interval deadline message
        timeout f (j + 1) (t + interval) (some (w 0)) by
      rw [pollUntilGo, if_pos ht, h0f]; simp [h0.2]]
    rw [ih (fun k => w (k + 1)) f (j + 1) (t + interval) (some (w 0))
      (fun k hk => by
        rw [show j + 1 + k = j + (k + 1) by omega]
        exact hpre (k + 1) (by omega))
      (by rw [show j + 1 + m = j + (m + 1) by omega]; exact hfv)
      hcv
      (fun k hk => by
        have := htl (k + 1) (by omega)
        rw [show t + interval + k * interval = t + ((k + 1 : ℕ) : ℚ) * interval
          by push_cast; ring]
        exact this)
      (by omega)]
    simp only [PollTrace.mk.injEq, true_and, and_true]
    refine ⟨by omega, by omega, by push_cast; ring⟩

/-- In the model, `async_wait_until`'s loop behaves exactly like
`wait_until`'s: awaiting the predicate's coroutine result is transparent, and
the event-loop clock is modelled like the monotonic clock. -/
theorem asyncWaitUntilGo_eq (condition : ℕ → Outcome ε Bool)
    (interval deadline : ℚ) (message : String) (timeout : ℚ) :
    ∀ (fuel j : ℕ) (t : ℚ),
      asyncWaitUntilGo condition interval deadline message timeout fuel j t =
      waitUntilGo condition interval deadline message timeout fuel j t := by
  intro fuel
  induction fuel with
  | zero =>
    intro j t
    rfl
  | succ f ih =>
    intro j t
    by_cases ht : t < deadline
    · cases hc : condition j with
      | fault e => simp [asyncWaitUntilGo, waitUntilGo, ht, hc]
      | ok b =>
        cases b with
        | true => simp [asyncWaitUntilGo, waitUntilGo, ht, hc]
        | false => simp [asyncWaitUntilGo, waitUntilGo, ht, hc, ih]
    · simp [asyncWaitUntilGo, waitUntilGo, ht]

/-- In the model, `async_poll_until`'s loop behaves exactly like
`poll_until`'s. -/
theorem asyncPollUntilGo_eq (fn : ℕ → Outcome ε α)
    (condition : α → Outcome ε Bool) (interval deadline : ℚ)
    (message : String) (timeout : ℚ) :
    ∀ (fuel j : ℕ) (t : ℚ) (last : Option α),
      asyncPollUntilGo fn condition interval deadline message timeout fuel j t
        last =
      pollUntilGo fn condition interval deadline message timeout fuel j t
        last := by
  intro fuel
  induction fuel with
  | zero =>
    intro j t last
    rfl
  | succ f ih =>
    intro j t last
    by_cases ht : t < deadline
    · cases hf : fn j with
      | fault e => simp [asyncPollUntilGo, pollUntilGo, ht, hf]
      | ok r =>
        cases hc : condition r with
        | fault e => simp [asyncPollUntilGo, pollUntilGo, ht, hf, hc]
        | ok b =>
          cases b with
          | true => simp [asyncPollUntilGo, pollUntilGo, ht, hf, hc]
          | false => simp [asyncPollUntilGo, pollUntilGo, ht, hf, hc, ih]
    · simp [asyncPollUntilGo, pollUntilGo, ht]

/-- `async_wait_until` and `wait_until` coincide in the model. -/
theorem async_wait_until_eq (condition : ℕ → Outcome ε Bool)
    (timeout interval : ℚ) (message : String) :
    async_wait_until condition timeout interval message =
      wait_until condition timeout interval message := by
  unfold async_wait_until wait_until
  exact asyncWaitUntilGo_eq condition interval timeout message timeout
    (waitFuel timeout interval) 0 0

/-- `async_poll_until` and `poll_until` coincide in the model. -/
theorem async_poll_until_eq (fn : ℕ → Outcome ε α)
    (condition : α → Outcome ε Bool) (timeout interval : ℚ)
    (message : String) :
    async_poll_until fn condition timeout interval message =
      poll_until fn condition timeout interval message := by
  unfold async_poll_until poll_until
  exact asyncPollUntilGo_eq fn condition interval timeout message timeout
    (waitFuel timeout interval) 0 0 none

/-- C1: for every `max_attempts = n ≥ 1` and every `k` with `1 ≤ k ≤ n`, if
the wrapped operation raises a retryable fault on attempts `1..k-1` and
succeeds with value `v` on attempt `k`, the `retry` wrapper returns `v`
unchanged, the `on_retry` observer is invoked exactly `k - 1` times, and no
attempt beyond `k` runs. -/
theorem retry_success_at_attempt_k (n k : ℤ) (d b : ℚ)
    (retryable : ε → Bool) (op : ℤ → Outcome ε α) (e : ℤ → ε) (v : α)
    (hn : 1 ≤ n) (hk1 : 1 ≤ k) (hkn : k ≤ n)
    (hpre : ∀ a : ℤ, 1 ≤ a → a < k →
      op a = Outcome.fault (e a) ∧ retryable (e a) = true)
    (hsucc : op k = Outcome.ok v) :
    (retry n d b retryable op).result = RetryResult.ok v ∧
    ((retry n d b retryable op).onRetryCalls.length : ℤ) = k - 1 ∧
    ((retry n d b retryable op).attemptsMade : ℤ) = k := by
  have hm := retryGo_succeedAt retryable b n op v (k - 1).toNat
    (fun j : ℕ => e (1 + j)) 1 n.toNat d none
    (by omega) (by omega)
    (fun j hj => hpre (1 + j) (by omega) (by omega))
    (by
      rw [show (1 : ℤ) + (((k - 1).toNat : ℕ) : ℤ) = k by omega]
      exact hsucc)
  rw [retry, hm]
  refine ⟨rfl, ?_, ?_⟩
  · show (((List.range (k - 1).toNat).map fun j : ℕ =>
      (e (1 + j), 1 + (j : ℤ))).length : ℤ) = k - 1
    simp only [List.length_map, List.length_range]
    omega
  · show (((k - 1).toNat + 1 : ℕ) : ℤ) = k
    omega

theorem retry_success_at_attempt_k_witness :
    (retry 3 2 1 (fun _ : Unit => true)
      (fun a => if a < 2 then Outcome.fault () else
        Outcome.ok (42 : ℕ))).result = RetryResult.ok 42 ∧
    (((retry 3 2 1 (fun _ : Unit => true)
      (fun a => if a < 2 then Outcome.fault () else
        Outcome.ok (42 : ℕ))).onRetryCalls.length : ℤ)) = 1 ∧
    (((retry 3 2 1 (fun _ : Unit => true)
      (fun a => if a < 2 then Outcome.fault () else
        Outcome.ok (42 : ℕ))).attemptsMade : ℤ)) = 2 := by
  have h := retry_success_at_attempt_k (ε := Unit) (α := ℕ) 3 2 2 1
    (fun _ => true)
    (fun a => if a < 2 then Outcome.fault () else Outcome.ok 42)
    (fun _ => ()) 42
    (by norm_num) (by norm_num) (by norm_num)
    (fun a h1 h2 => by
      rw [show a = 1 by omega]
      exact ⟨rfl, rfl⟩)
    rfl
  exact ⟨h.1, h.2.1, h.2.2⟩

/-- C2: for every `max_attempts = n ≥ 1`, if the wrapped operation raises a
retryable fault on all `n` attempts, the `retry` wrapper re-raises the fault
of the final attempt `n`, the observer is invoked exactly `n - 1` times with
attempt numbers `1..n-1` (never for the final attempt), and only `n - 1`
suspensions occur — none after the final attempt. -/
theorem retry_all_attempts_fail (n : ℤ) (d b : ℚ) (retryable : ε → Bool)
    (op : ℤ → Outcome ε α) (e : ℤ → ε) (hn : 1 ≤ n)
    (hfail : ∀ a : ℤ, 1 ≤ a → a ≤ n →
      op a = Outcome.fault (e a) ∧ retryable (e a) = true) :
    (retry n d b retryable op).result = RetryResult.raised (e n) ∧
    (retry n d b retryable op).onRetryCalls =
      (List.range (n.toNat - 1)).map
        (fun k : ℕ => (e (1 + (k : ℤ)), 1 + (k : ℤ))) ∧
    (retry n d b retryable op).sleeps.length = n.toNat - 1 ∧
    (retry n d b retryable op).attemptsMade = n.toNat := by
  have hm := retryGo_allFault retryable b n op e n.toNat 1 d none
    (by omega) (by omega) (fun a h1 h2 => hfail a (by omega) h2)
  rw [retry, hm]
  refine ⟨rfl, rfl, ?_, rfl⟩
  show (((List.range (n.toNat - 1)).map fun k : ℕ => d * b ^ k).length) =
    n.toNat - 1
  simp

theorem retry_all_attempts_fail_witness :
    (retry 2 1 1 (fun _ : ℤ => true)
      (fun a => (Outcome.fault a : Outcome ℤ ℕ))).result =
        RetryResult.raised 2 ∧
    (retry 2 1 1 (fun _ : ℤ => true)
      (fun a => (Outcome.fault a : Outcome ℤ ℕ))).onRetryCalls =
      (List.range ((2 : ℤ).toNat - 1)).map
        (fun k : ℕ => ((1 + (k : ℤ)), 1 + (k : ℤ))) ∧
    (retry 2 1 1 (fun _ : ℤ => true)
      (fun a => (Outcome.fault a : Outcome ℤ ℕ))).sleeps.length =
        (2 : ℤ).toNat - 1 ∧
    (retry 2 1 1 (fun _ : ℤ => true)
      (fun a => (Outcome.fault a : Outcome ℤ ℕ))).attemptsMade =
        (2 : ℤ).toNat := by
  exact retry_all_attempts_fail 2 1 1 (fun _ => true)
    (fun a => Outcome.fault a) (fun a => a) (by norm_num)
    (fun a h1 h2 => ⟨rfl, rfl⟩)

/-- C3: when `max_attempts = n > 1` and the operation raises a
non-retryable fault (one outside the configured exception set) on attempt 1,
the `retry` wrapper propagates that very fault immediately: no observer
invocation, no suspension, and no second attempt. -/
theorem retry_nonretryable_propagates (n : ℤ) (d b : ℚ)
    (retryable : ε → Bool) (op : ℤ → Outcome ε α) (exc : ε)
    (hn : 1 < n) (hop : op 1 = Outcome.fault exc)
    (hnr : retryable exc = false) :
    retry n d b retryable op =
      { result := RetryResult.raised exc, onRetryCalls := [], sleeps := [],
        attemptsMade := 1 } := by
  obtain ⟨m, hm⟩ : ∃ m, n.toNat = m + 1 := ⟨n.toNat - 1, by omega⟩
  rw [retry, hm, retryGo, hop]
  simp [hnr]

theorem retry_nonretryable_propagates_witness :
    retry 3 1 2 (fun _ : String => false)
      (fun _ => (Outcome.fault "boom" : Outcome String ℕ)) =
      { result := RetryResult.raised "boom", onRetryCalls := [], sleeps := [],
        attemptsMade := 1 } :=
  retry_nonretryable_propagates 3 1 2 (fun _ => false)
    (fun _ => Outcome.fault "boom") "boom" (by norm_num) rfl rfl

/-- C4: with base delay `d ≥ 0` and backoff factor `b ≥ 1`, every suspension
the `retry` wrapper performs has duration `d * b ^ j` where `j` counts
previous suspensions of the call (so the j-th suspension, 1-indexed, lasts
`d * b ^ (j-1)`); in particular with `delay = 1`, `backoff = 2`,
`times = 4` and an always-failing retryable operation, the three observed
suspensions are `1, 2, 4`. -/
theorem retry_backoff_geometric (n : ℤ) (d b : ℚ) (retryable : ε → Bool)
    (op : ℤ → Outcome ε α) (_hd : 0 ≤ d) (_hb : 1 ≤ b) :
    (∃ m : ℕ, (retry n d b retryable op).sleeps =
      (List.range m).map fun j : ℕ => d * b ^ j) ∧
    (retry 4 1 2 (fun _ : Unit => true)
      (fun _ : ℤ => (Outcome.fault () : Outcome Unit ℕ))).sleeps =
      [1, 2, 4] := by
  constructor
  · exact retryGo_sleeps_geometric retryable b n op n.toNat 1 d none
  · norm_num [retry, retryGo]

theorem retry_backoff_geometric_witness :
    (∃ m : ℕ, (retry 5 (1/2) 3 (fun _ : Unit => true)
      (fun _ : ℤ => (Outcome.ok 0 : Outcome Unit ℕ))).sleeps =
      (List.range m).map fun j : ℕ => (1/2 : ℚ) * 3 ^ j) ∧
    (retry 4 1 2 (fun _ : Unit => true)
      (fun _ : ℤ => (Outcome.fault () : Outcome Unit ℕ))).sleeps =
      [1, 2, 4] :=
  retry_backoff_geometric 5 (1/2) 3 (fun _ => true)
    (fun _ => Outcome.ok 0) (by norm_num) (by norm_num)

/-- C10: when the `retry` wrapper is configured with `times ≤ 0`, the
`for attempt in range(1, times + 1)` loop body never runs: the wrapped
operation is not invoked at all and the trailing `raise last_exc` executes
with `last_exc` still `None` (a `TypeError` in Python), rather than
returning a result or raising an operation fault. -/
theorem retry_nonpositive_times (n : ℤ) (d b : ℚ) (retryable : ε → Bool)
    (op : ℤ → Outcome ε α) (hn : n ≤ 0) :
    (retry n d b retryable op).attemptsMade = 0 ∧
    (retry n d b retryable op).result = RetryResult.raiseNone := by
  have h0 : n.toNat = 0 := by omega
  rw [retry, h0]
  exact ⟨rfl, rfl⟩

theorem retry_nonpositive_times_witness :
    (retry 0 1 2 (fun _ : Unit => true)
      (fun _ : ℤ => (Outcome.ok 7 : Outcome Unit ℕ))).attemptsMade = 0 ∧
    (retry 0 1 2 (fun _ : Unit => true)
      (fun _ : ℤ => (Outcome.ok 7 : Outcome Unit ℕ))).result =
      RetryResult.raiseNone :=
  retry_nonpositive_times 0 1 2 (fun _ => true) (fun _ => Outcome.ok 7)
    (by norm_num)

/-- Full trace of a `wait_until` call whose predicate never returns true
(for a positive poll interval): a Timeout carrying the message and the
configured timeout, after `⌈timeout / interval⌉` evaluations and sleeps,
ending when the clock first reaches or passes the deadline. -/
theorem wait_until_neverTrue_trace (condition : ℕ → Outcome ε Bool)
    (T i : ℚ) (msg : String) (hi : 0 < i)
    (hnever : ∀ k, condition k = Outcome.ok false) :
    wait_until condition T i msg =
      { result := WaitResult.timeout msg T, evals := (⌈T / i⌉).toNat,
        sleeps := (⌈T / i⌉).toNat,
        finalTime := ((⌈T / i⌉).toNat : ℚ) * i } := by
  have h := waitUntilGo_neverTrue condition i T msg T hnever hi
    (waitFuel T i) 0 0 (by rw [sub_zero]; unfold waitFuel; omega)
  simp only [sub_zero, zero_add] at h
  rw [wait_until]
  exact h

/-- The clock value after `⌈T / i⌉` sleeps of length `i` is at least `T`. -/
theorem ceil_toNat_mul_ge (T i : ℚ) (hT : 0 < T) (hi : 0 < i) :
    T ≤ ((⌈T / i⌉).toNat : ℚ) * i := by
  have hpos : 0 < ⌈T / i⌉ := Int.ceil_pos.mpr (div_pos hT hi)
  have h4 : T / i ≤ ((⌈T / i⌉ : ℤ) : ℚ) := Int.le_ceil _
  have h5 : (((⌈T / i⌉).toNat : ℕ) : ℚ) = ((⌈T / i⌉ : ℤ) : ℚ) := by
    norm_cast
    omega
  calc T = (T / i) * i := (div_mul_cancel₀ T (ne_of_gt hi)).symm
    _ ≤ ((⌈T / i⌉ : ℤ) : ℚ) * i := mul_le_mul_of_nonneg_right h4 hi.le
    _ = ((⌈T / i⌉).toNat : ℚ) * i := by rw [h5]

/-- C5 (amended): for `timeout = T > 0` and `poll_interval = i > 0`,
`wait_until` evaluates its predicate at least once, and when the predicate
never returns true it evaluates it exactly `⌈T / i⌉` times — which is at
most `⌊T / i⌋ + 1`, with equality exactly when `i` does not divide `T` —
before failing with a Timeout, at which point at least `T` time has
elapsed. -/
theorem wait_until_eval_count (condition : ℕ → Outcome ε Bool) (T i : ℚ)
    (msg : String) (hT : 0 < T) (hi : 0 < i)
    (hnever : ∀ k, condition k = Outcome.ok false) :
    1 ≤ (wait_until condition T i msg).evals ∧
    (wait_until condition T i msg).evals = (⌈T / i⌉).toNat ∧
    (((wait_until condition T i msg).evals : ℕ) : ℤ) ≤ ⌊T / i⌋ + 1 ∧
    (wait_until condition T i msg).result = WaitResult.timeout msg T ∧
    T ≤ (wait_until condition T i msg).finalTime := by
  have htr := wait_until_neverTrue_trace condition T i msg hi hnever
  have hpos : 0 < ⌈T / i⌉ := Int.ceil_pos.mpr (div_pos hT hi)
  have hle := Int.ceil_le_floor_add_one (T / i)
  rw [htr]
  refine ⟨?_, rfl, ?_, rfl, ceil_toNat_mul_ge T i hT hi⟩
  · show 1 ≤ (⌈T / i⌉).toNat
    omega
  · show (((⌈T / i⌉).toNat : ℕ) : ℤ) ≤ ⌊T / i⌋ + 1
    omega

theorem wait_until_eval_count_witness :
    1 ≤ (wait_until (fun _ => (Outcome.ok false : Outcome Unit Bool)) 3 2
      "w").evals ∧
    (wait_until (fun _ => (Outcome.ok false : Outcome Unit Bool)) 3 2
      "w").evals = (⌈(3 : ℚ) / 2⌉).toNat ∧
    (((wait_until (fun _ => (Outcome.ok false : Outcome Unit Bool)) 3 2
      "w").evals : ℕ) : ℤ) ≤ ⌊(3 : ℚ) / 2⌋ + 1 ∧
    (wait_until (fun _ => (Outcome.ok false : Outcome Unit Bool)) 3 2
      "w").result = WaitResult.timeout "w" 3 ∧
    (3 : ℚ) ≤ (wait_until (fun _ => (Outcome.ok false : Outcome Unit Bool))
      3 2 "w").finalTime :=
  wait_until_eval_count (fun _ => Outcome.ok false) 3 2 "w"
    (by norm_num) (by norm_num) (fun _ => rfl)

/-- C5 counterexample: with `timeout = 1` and `poll_interval = 1` (the
interval divides the timeout exactly), a never-true predicate is evaluated
once, not `⌊1 / 1⌋ + 1 = 2` times as the claim's formula demands. -/
theorem wait_until_eval_count_cex :
    ¬((((wait_until (fun _ => (Outcome.ok false : Outcome Unit Bool)) 1 1
      "m").evals : ℕ) : ℤ) = ⌊(1 : ℚ) / 1⌋ + 1) := by
  have h1 : (wait_until (fun _ => (Outcome.ok false : Outcome Unit Bool)) 1 1
      "m").evals = 1 := by
    norm_num [wait_until, waitUntilGo, waitFuel]
  rw [h1]
  norm_num

/-- C6 (amended): when the predicate never becomes true (with `T > 0`,
`i > 0`), `wait_until` fails with a Timeout carrying the caller-supplied
message together with the configured `timeout` value — not the measured
elapsed time — and at that moment at least `T` time has elapsed on the
monotonic clock. -/
theorem wait_until_timeout_payload (condition : ℕ → Outcome ε Bool)
    (T i : ℚ) (msg : String) (hT : 0 < T) (hi : 0 < i)
    (hnever : ∀ k, condition k = Outcome.ok false) :
    (wait_until condition T i msg).result = WaitResult.timeout msg T ∧
    T ≤ (wait_until condition T i msg).finalTime := by
  have htr := wait_until_neverTrue_trace condition T i msg hi hnever
  rw [htr]
  exact ⟨rfl, ceil_toNat_mul_ge T i hT hi⟩

theorem wait_until_timeout_payload_witness :
    (wait_until (fun _ => (Outcome.ok false : Outcome Unit Bool)) 2 1
      "why").result = WaitResult.timeout "why" 2 ∧
    (2 : ℚ) ≤ (wait_until (fun _ => (Outcome.ok false : Outcome Unit Bool))
      2 1 "why").finalTime :=
  wait_until_timeout_payload (fun _ => Outcome.ok false) 2 1 "why"
    (by norm_num) (by norm_num) (fun _ => rfl)

/-- C6 counterexample: with `timeout = 1`, `poll_interval = 7/10`, the
Timeout fault of a never-true `wait_until` carries the rational `1` (the
configured timeout), while the elapsed time at failure is `7/5 ≠ 1`; the
fault therefore does not carry the elapsed time. -/
theorem wait_until_timeout_payload_cex :
    (wait_until (fun _ => (Outcome.ok false : Outcome Unit Bool)) 1 (7/10)
      "m").result = WaitResult.timeout "m" 1 ∧
    (wait_until (fun _ => (Outcome.ok false : Outcome Unit Bool)) 1 (7/10)
      "m").finalTime = 7/5 ∧
    (7/5 : ℚ) ≠ 1 := by
  have h2 : (⌈(10 : ℚ)/7⌉ : ℤ) = 2 := by norm_num [Int.ceil_eq_iff]
  refine ⟨?_, ?_, by norm_num⟩ <;>
    norm_num [wait_until, waitUntilGo, waitFuel, h2]

/-- C7: `poll_until` returns the first produced value satisfying the
predicate, calling the producer exactly once per iteration: if the first
`m` produced values fail the predicate and the producer's next value `v`
satisfies it — with `poll_interval` small enough and `timeout` large enough
that iteration `m` starts before the deadline — the call returns `v` after
exactly `m + 1` producer calls. -/
theorem poll_until_first_satisfying (fn : ℕ → Outcome ε α)
    (condition : α → Outcome ε Bool) (T i : ℚ) (msg : String)
    (w : ℕ → α) (v : α) (m : ℕ) (hi : 0 < i) (hm : (m : ℚ) * i < T)
    (hpre : ∀ k, k < m → fn k = Outcome.ok (w k) ∧
      condition (w k) = Outcome.ok false)
    (hfv : fn m = Outcome.ok v) (hcv : condition v = Outcome.ok true) :
    (poll_until fn condition T i msg).result = PollResult.ok v ∧
    (poll_until fn condition T i msg).calls = m + 1 := by
  have h := pollUntilGo_succeedAt fn condition i T msg T v m w
    (waitFuel T i) 0 0 none
    (fun k hk => by simpa using hpre k hk)
    (by simpa using hfv) hcv
    (fun k hk => by
      have hkm : (k : ℚ) * i ≤ (m : ℚ) * i :=
        mul_le_mul_of_nonneg_right (by exact_mod_cast hk) hi.le
      simpa using lt_of_le_of_lt hkm hm)
    (lt_waitFuel T i m hi hm)
  rw [poll_until, h]
  refine ⟨rfl, ?_⟩
  show 0 + m + 1 = m + 1
  omega

theorem poll_until_first_satisfying_witness :
    (poll_until (fun k => (Outcome.ok (k + 1) : Outcome Unit ℕ))
      (fun r => Outcome.ok (decide (r = 3))) 10 1 "p").result =
      PollResult.ok 3 ∧
    (poll_until (fun k => (Outcome.ok (k + 1) : Outcome Unit ℕ))
      (fun r => Outcome.ok (decide (r = 3))) 10 1 "p").calls = 3 := by
  have h := poll_until_first_satisfying
    (fun k => (Outcome.ok (k + 1) : Outcome Unit ℕ))
    (fun r => Outcome.ok (decide (r = 3))) 10 1 "p"
    (fun k => k + 1) 3 2 (by norm_num) (by norm_num)
    (fun k hk => by interval_cases k <;> exact ⟨rfl, rfl⟩)
    rfl rfl
  exact ⟨h.1, h.2⟩

/-- C8: when every produced value fails the predicate (with `T > 0`,
`i > 0`), `poll_until` fails with a Timeout carrying the caller's message
and the last observed value, and that attached value is exactly the output
of the final producer call (call number `⌈T / i⌉`, counting from 1). -/
theorem poll_until_timeout_carries_last (fn : ℕ → Outcome ε α)
    (condition : α → Outcome ε Bool) (T i : ℚ) (msg : String) (w : ℕ → α)
    (hT : 0 < T) (hi : 0 < i)
    (hfn : ∀ k, fn k = Outcome.ok (w k))
    (hnever : ∀ k, condition (w k) = Outcome.ok false) :
    (poll_until fn condition T i msg).result =
      PollResult.timeout msg T
        (some (w ((poll_until fn condition T i msg).calls - 1))) ∧
    (poll_until fn condition T i msg).calls = (⌈T / i⌉).toNat ∧
    1 ≤ (poll_until fn condition T i msg).calls := by
  have h := pollUntilGo_neverTrue fn condition i T msg T w hfn hnever hi
    (waitFuel T i) 0 0 none (by rw [sub_zero]; unfold waitFuel; omega)
  simp only [sub_zero, zero_add] at h
  have hpos : 0 < ⌈T / i⌉ := Int.ceil_pos.mpr (div_pos hT hi)
  rw [poll_until, h]
  rw [if_neg (show ¬(⌈T / i⌉).toNat = 0 by omega)]
  refine ⟨rfl, rfl, ?_⟩
  show 1 ≤ (⌈T / i⌉).toNat
  omega

theorem poll_until_timeout_carries_last_witness :
    (poll_until (fun k => (Outcome.ok k : Outcome Unit ℕ))
      (fun _ => Outcome.ok false) 1 1 "q").result =
      PollResult.timeout "q" 1
        (some ((poll_until (fun k => (Outcome.ok k : Outcome Unit ℕ))
          (fun _ => Outcome.ok false) 1 1 "q").calls - 1)) ∧
    (poll_until (fun k => (Outcome.ok k : Outcome Unit ℕ))
      (fun _ => Outcome.ok false) 1 1 "q").calls = (⌈(1 : ℚ) / 1⌉).toNat ∧
    1 ≤ (poll_until (fun k => (Outcome.ok k : Outcome Unit ℕ))
      (fun _ => Outcome.ok false) 1 1 "q").calls :=
  poll_until_timeout_carries_last (fun k => Outcome.ok k)
    (fun _ => Outcome.ok false) 1 1 "q" (fun k => k)
    (by norm_num) (by norm_num) (fun _ => rfl) (fun _ => rfl)

/-- C9: a fault raised by the predicate during `wait_until` (or
`async_wait_until`), or by the producer or the predicate-over-value during
`poll_until` (or `async_poll_until`), is not caught or retried by the
polling primitive: it propagates to the caller at the iteration where it
occurs, with no further sleep.  (Only the `retry` wrapper catches faults.)
The three scenarios — predicate fault after `m` false evaluations, producer
fault after `m` failing iterations, predicate-over-value fault on the
`m`-th produced value — are each stated for the synchronous primitive and,
where applicable, its asynchronous variant. -/
theorem polling_faults_propagate
    (condition : ℕ → Outcome ε Bool)
    (fn : ℕ → Outcome ε α) (vcond : α → Outcome ε Bool) (w : ℕ → α)
    (gn : ℕ → Outcome ε α) (gcond : α → Outcome ε Bool) (u : ℕ → α) (v : α)
    (T i : ℚ) (msg : String) (m : ℕ) (e : ε)
    (hi : 0 < i) (hm : (m : ℚ) * i < T)
    (hwpre : ∀ k, k < m → condition k = Outcome.ok false)
    (hwf : condition m = Outcome.fault e)
    (hppre : ∀ k, k < m → fn k = Outcome.ok (w k) ∧
      vcond (w k) = Outcome.ok false)
    (hpf : fn m = Outcome.fault e)
    (hgpre : ∀ k, k < m → gn k = Outcome.ok (u k) ∧
      gcond (u k) = Outcome.ok false)
    (hgv : gn m = Outcome.ok v) (hgf : gcond v = Outcome.fault e) :
    ((wait_until condition T i msg).result = WaitResult.raised e ∧
      (wait_until condition T i msg).sleeps = m) ∧
    ((poll_until fn vcond T i msg).result = PollResult.raised e ∧
      (poll_until fn vcond T i msg).sleeps = m) ∧
    (poll_until gn gcond T i msg).result = PollResult.raised e ∧
    (async_wait_until condition T i msg).result = WaitResult.raised e ∧
    (async_poll_until fn vcond T i msg).result = PollResult.raised e := by
  have htl : ∀ k : ℕ, k ≤ m → (0 : ℚ) + k * i < T := fun k hk => by
    have hkm : (k : ℚ) * i ≤ (m : ℚ) * i :=
      mul_le_mul_of_nonneg_right (by exact_mod_cast hk) hi.le
    simpa using lt_of_le_of_lt hkm hm
  have hfuel := lt_waitFuel T i m hi hm
  have hw := waitUntilGo_faultAt condition i T msg T e m (waitFuel T i) 0 0
    (fun k hk => by simpa using hwpre k hk)
    (by simpa using hwf) htl hfuel
  have hp := pollUntilGo_fnFaultAt fn vcond i T msg T e m w (waitFuel T i)
    0 0 none
    (fun k hk => by simpa using hppre k hk)
    (by simpa using hpf) htl hfuel
  have hg := pollUntilGo_condFaultAt gn gcond i T msg T v e m u (waitFuel T i)
    0 0 none
    (fun k hk => by simpa using hgpre k hk)
    (by simpa using hgv) hgf htl hfuel
  refine ⟨⟨?_, ?_⟩, ⟨?_, ?_⟩, ?_, ?_, ?_⟩
  · rw [wait_until, hw]
  · rw [wait_until, hw]
    show 0 + m = m
    omega
  · rw [poll_until, hp]
  · rw [poll_until, hp]
    show 0 + m = m
    omega
  · rw [poll_until, hg]
  · rw [async_wait_until_eq, wait_until, hw]
  · rw [async_poll_until_eq, poll_until, hp]

theorem polling_faults_propagate_witness :
    ((wait_until (fun k => if k = 0 then Outcome.ok false
        else (Outcome.fault () : Outcome Unit Bool)) 10 1 "f").result =
      WaitResult.raised () ∧
      (wait_until (fun k => if k = 0 then Outcome.ok false
        else (Outcome.fault () : Outcome Unit Bool)) 10 1 "f").sleeps = 1) ∧
    ((poll_until (fun k => if k = 0 then Outcome.ok 5
        else (Outcome.fault () : Outcome Unit ℕ))
        (fun _ => Outcome.ok false) 10 1 "f").result =
      PollResult.raised () ∧
      (poll_until (fun k => if k = 0 then Outcome.ok 5
        else (Outcome.fault () : Outcome Unit ℕ))
        (fun _ => Outcome.ok false) 10 1 "f").sleeps = 1) ∧
    (poll_until (fun k => (Outcome.ok k : Outcome Unit ℕ))
      (fun r => if r = 1 then Outcome.fault () else Outcome.ok false)
      10 1 "f").result = PollResult.raised () ∧
    (async_wait_until (fun k => if k = 0 then Outcome.ok false
      else (Outcome.fault () : Outcome Unit Bool)) 10 1 "f").result =
      WaitResult.raised () ∧
    (async_poll_until (fun k => if k = 0 then Outcome.ok 5
      else (Outcome.fault () : Outcome Unit ℕ))
      (fun _ => Outcome.ok false) 10 1 "f").result = PollResult.raised () :=
  polling_faults_propagate
    (fun k => if k = 0 then Outcome.ok false else Outcome.fault ())
    (fun k => if k = 0 then Outcome.ok 5 else Outcome.fault ())
    (fun _ => Outcome.ok false) (fun _ => 5)
    (fun k => Outcome.ok k)
    (fun r => if r = 1 then Outcome.fault () else Outcome.ok false)
    (fun k => k) 1 10 1 "f" 1 ()
    (by norm_num) (by norm_num)
    (fun k hk => by interval_cases k; rfl)
    rfl
    (fun k hk => by interval_cases k; exact ⟨rfl, rfl⟩)
    rfl
    (fun k hk => by interval_cases k; exact ⟨rfl, rfl⟩)
    rfl rfl
